import Mathlib

/-!
Verification of the blog index-building pipeline (`getPosts` in
`src/lib/getPosts`) of a static blog repository.

The JavaScript source is:

```
export const getPosts = async () => {
  const dirFiles = fs.readdirSync(
    path.join(process.cwd(), "src", "pages", "blog"),
    { withFileTypes: true }
  );
  return await Promise.all(
    dirFiles.map(async (f) => {
      const { meta } = await import(`../pages/blog/${f.name}`);
      const slug = f.name.replace(/.mdx$/, "");
      return { meta, slug };
    })
  );
};
```

We embed this shallowly: the filesystem state and the module system are
explicit inputs; `Promise.all` over the mapped list is a fold that rejects
with the first rejection in list order; the regex replacement
`.replace(/.mdx$/, "")` is modelled character-exactly (note the regex dot
is unescaped, so it matches ANY character followed by `mdx` at the end).
-/

namespace Blog

/-- A directory entry as returned by `fs.readdirSync` with
`withFileTypes: true`: a name plus the file-type information
(`isFile` is the result of the Node `Dirent.isFile()` method). -/
structure Dirent where
  name : String
  isFile : Bool
deriving DecidableEq

/-- The metadata record exported by a blog post module (spec §3:
`title` and `date`). -/
structure Meta where
  title : String
  date : String
deriving DecidableEq

/-- Result of `await import(path)` for a post module: the import either
rejects with an error, or the module loads and its `meta` export is
present (`some`) or absent (destructuring an absent export yields
`undefined`, modelled as `none`). -/
inductive ImportResult where
  | failed (err : String)
  | loaded (meta : Option Meta)
deriving DecidableEq

/-- Whether an import result is a successful module load. -/
def ImportResult.isLoaded : ImportResult → Bool
  | .loaded _ => true
  | .failed _ => false

/-- The `meta` binding produced by `const { meta } = await import(...)`
on a successful load (`none` when the export is absent). -/
def ImportResult.loadedMeta : ImportResult → Option Meta
  | .loaded m => m
  | .failed _ => none

/-- Errors raised by `fs.readdirSync`: Node raises ENOENT when the path
does not exist and EACCES when it is unreadable; the spec names these
`DirectoryNotFound` and `PermissionDenied`. -/
inductive FsError where
  | directoryNotFound
  | permissionDenied
deriving DecidableEq

/-- State of the content directory as seen by `fs.readdirSync`:
missing, unreadable, or readable with an enumeration-ordered listing. -/
inductive DirStatus where
  | missing
  | unreadable
  | readable (entries : List Dirent)
deriving DecidableEq

/-- Modelled from the spec and Node semantics: `fs.readdirSync` returns
the listing in filesystem-enumeration order, and throws
ENOENT (`DirectoryNotFound`) / EACCES (`PermissionDenied`) on a missing
or unreadable directory.  The source calls it without any catch. -/
def readdirSync : DirStatus → Except FsError (List Dirent)
  | .missing => .error .directoryNotFound
  | .unreadable => .error .permissionDenied
  | .readable entries => .ok entries

/-- An error that makes `getPosts` reject: either the thrown
`readdirSync` error or a rejected per-file import. -/
inductive BuildError where
  | fsError (e : FsError)
  | importError (err : String)
deriving DecidableEq

/-- One `{ meta, slug }` record of the returned index.  `meta` is
`Option Meta` because destructuring a module without a `meta` export
yields `undefined`. -/
structure IndexEntry where
  meta : Option Meta
  slug : String
deriving DecidableEq

/-- `f.name.replace(/.mdx$/, "")` on the character list: the regex
matches ANY single character (unescaped dot) followed by `mdx` at the
end of the string, and the (single, anchored) match is replaced by the
empty string; otherwise the list is unchanged. -/
def stripMdxSuffix (cs : List Char) : List Char :=
  match cs.reverse with
  | 'x' :: 'd' :: 'm' :: _ :: rest => rest.reverse
  | _ => cs

/-- The slug derivation `const slug = f.name.replace(/.mdx$/, "")`. -/
def slugOf (name : String) : String :=
  String.mk (stripMdxSuffix name.data)

/-- Whether the regex `/.mdx$/` matches `name` (any character followed
by `mdx` at the end). -/
def matchDotMdx (name : String) : Bool :=
  match name.data.reverse with
  | 'x' :: 'd' :: 'm' :: _ :: _ => true
  | _ => false

/-- Whether `name` literally ends with the four characters `.mdx`
(the notion of "recognized extension" used by the spec; decidable,
bridged to the suffix decomposition by `endsWithDotMdx_iff`). -/
def endsWithDotMdx (name : String) : Bool :=
  match name.data.reverse with
  | 'x' :: 'd' :: 'm' :: '.' :: _ => true
  | _ => false

/-- `Promise.all` over an ordered list of settled outcomes: resolves
with the list of values when all resolve, rejects with the first
rejection in list order otherwise. -/
def promiseAll : List (Except BuildError IndexEntry) → Except BuildError (List IndexEntry)
  | [] => .ok []
  | t :: ts =>
    match t with
    | .error e => .error e
    | .ok v =>
      match promiseAll ts with
      | .error e => .error e
      | .ok vs => .ok (v :: vs)

/-- The body of the arrow function mapped over `dirFiles`: import the
module named by the entry, derive the slug, return `{ meta, slug }`;
a rejected import rejects the mapped promise. -/
def buildEntry (importMod : String → ImportResult) (f : Dirent) : Except BuildError IndexEntry :=
  match importMod f.name with
  | .failed err => .error (.importError err)
  | .loaded m => .ok { meta := m, slug := slugOf f.name }

/-- `getPosts`, shallowly embedded: read the content directory listing
(a thrown `readdirSync` error propagates, rejecting the call), map
every directory entry — with no filtering of any kind — through the
import-and-slug step, and join with `Promise.all`. -/
def getPosts (dir : DirStatus) (importMod : String → ImportResult) :
    Except BuildError (List IndexEntry) :=
  match readdirSync dir with
  | .error e => .error (.fsError e)
  | .ok dirFiles => promiseAll (dirFiles.map (buildEntry importMod))

/-! Helper lemmas shared by the claim theorems. -/

/-- Stripping behaviour on a list that ends in some character followed
by `mdx`: exactly those four characters are removed. -/
theorem stripMdx_append (pre : List Char) (c : Char) :
    stripMdxSuffix (pre ++ [c, 'm', 'd', 'x']) = pre := by
  unfold stripMdxSuffix
  rw [List.reverse_append]
  simp

/-- Stripping behaviour when the reversed list does not start with
`x`, `d`, `m`, anything: the list is unchanged. -/
theorem stripMdx_no_match (cs : List Char)
    (h : ∀ c rest, cs.reverse ≠ 'x' :: 'd' :: 'm' :: c :: rest) :
    stripMdxSuffix cs = cs := by
  unfold stripMdxSuffix
  split
  · rename_i heq
    exact absurd heq (h _ _)
  · rfl

/-- A failed regex match means the reversed character list does not
start with `x`, `d`, `m`, anything. -/
theorem matchDotMdx_false_no_match (name : String) (h : matchDotMdx name = false) :
    ∀ c rest, name.data.reverse ≠ 'x' :: 'd' :: 'm' :: c :: rest := by
  intro c rest hne
  unfold matchDotMdx at h
  rw [hne] at h
  simp at h

/-- A successful regex match exposes the matched final character and
the untouched head of the filename. -/
theorem matchDotMdx_true_exists (name : String) (h : matchDotMdx name = true) :
    ∃ c rest, name.data.reverse = 'x' :: 'd' :: 'm' :: c :: rest := by
  unfold matchDotMdx at h
  split at h
  · rename_i c rest heq
    exact ⟨c, rest, heq⟩
  · exact absurd h (by simp)

/-- The decidable check `endsWithDotMdx` agrees with the decomposition
`name = base ++ ".mdx"`. -/
theorem endsWithDotMdx_iff (name : String) :
    endsWithDotMdx name = true ↔ ∃ base, name = base ++ ".mdx" := by
  constructor
  · intro h
    unfold endsWithDotMdx at h
    split at h
    · rename_i c rest heq
      refine ⟨String.mk rest.reverse, ?_⟩
      have hd : name.data = rest.reverse ++ ['.', 'm', 'd', 'x'] := by
        have hrev := congrArg List.reverse heq
        simpa using hrev
      exact congrArg String.mk hd
    · exact absurd h (by simp)
  · rintro ⟨base, rfl⟩
    unfold endsWithDotMdx
    have hd : (base ++ ".mdx").data = base.data ++ ['.', 'm', 'd', 'x'] := rfl
    rw [hd, List.reverse_append]
    rfl

/-- `Promise.all` over a map whose every element resolves, resolves with
the mapped values, in order. -/
theorem promiseAll_map_ok {α : Type} (f : α → Except BuildError IndexEntry)
    (g : α → IndexEntry) (l : List α) (h : ∀ a ∈ l, f a = .ok (g a)) :
    promiseAll (l.map f) = .ok (l.map g) := by
  induction l with
  | nil => rfl
  | cons a as ih =>
    have ha : f a = .ok (g a) := h a (List.mem_cons_self a as)
    have ih2 := ih (fun b hb => h b (List.mem_cons_of_mem a hb))
    simp [promiseAll, ha, ih2]

/-- Characterization of `getPosts` on a readable directory when every
per-file import loads: it returns, in listing order, one entry per
directory entry, holding that entry's loaded `meta` binding and the
slug derived from its name. -/
theorem getPosts_readable_eq_map (l : List Dirent) (importMod : String → ImportResult)
    (h : ∀ f ∈ l, (importMod f.name).isLoaded = true) :
    getPosts (.readable l) importMod =
      .ok (l.map fun f => ⟨(importMod f.name).loadedMeta, slugOf f.name⟩) := by
  unfold getPosts readdirSync
  refine promiseAll_map_ok _ _ _ ?_
  intro f hf
  have hl := h f hf
  unfold buildEntry
  cases him : importMod f.name with
  | failed err =>
    rw [him] at hl
    simp [ImportResult.isLoaded] at hl
  | loaded m =>
    simp [ImportResult.loadedMeta, him]

/-! The claims. -/

/-- C1: for a readable content directory whose every entry is a valid
Document file (its module import loads), `getPosts` returns a sequence
of exactly as many Index Entries as there are directory entries. -/
theorem getPosts_entry_count (l : List Dirent) (importMod : String → ImportResult)
    (h : ∀ f ∈ l, (importMod f.name).isLoaded = true) :
    ∃ es, getPosts (.readable l) importMod = Except.ok es ∧ es.length = l.length :=
  ⟨_, getPosts_readable_eq_map l importMod h, by simp⟩

/-- Witness for C1: a concrete two-file directory yields exactly two
entries. -/
theorem getPosts_entry_count_witness :
    ∃ es,
      getPosts (.readable [⟨"a.mdx", true⟩, ⟨"b.mdx", true⟩])
        (fun _ => .loaded (some ⟨"T", "D"⟩)) = Except.ok es ∧ es.length = 2 :=
  getPosts_entry_count _ _ (by decide)

/-- Counterexample to C2 as stated: a Document whose `meta` export is
missing does NOT abort the build; `getPosts` resolves with an Index
Entry for it (with `undefined` metadata), contradicting "the build
aborts with a MissingMetadata error ... and no Index Entries are
returned". -/
theorem getPosts_missing_meta_counterexample :
    getPosts (.readable [⟨"broken.mdx", true⟩]) (fun _ => ImportResult.loaded none) =
      Except.ok [⟨none, "broken"⟩] := by
  rfl

/-- C2 (amended): when a Document is missing its metadata block, the
destructuring `const { meta } = await import(...)` yields
`undefined` and the build continues: `getPosts` resolves with one Index
Entry per file, carrying no metadata — there is no MissingMetadata
error and no abort. -/
theorem getPosts_missing_meta_no_abort (l : List Dirent) (importMod : String → ImportResult)
    (h : ∀ f ∈ l, importMod f.name = ImportResult.loaded none) :
    getPosts (.readable l) importMod =
      Except.ok (l.map fun f => ⟨none, slugOf f.name⟩) := by
  have h2 : ∀ f ∈ l, (importMod f.name).isLoaded = true := by
    intro f hf
    rw [h f hf]
    rfl
  rw [getPosts_readable_eq_map l importMod h2]
  congr 1
  refine List.map_congr_left ?_
  intro f hf
  rw [h f hf]
  rfl

/-- Witness for C2 (amended): one file with a missing metadata export
produces one metadata-less entry. -/
theorem getPosts_missing_meta_no_abort_witness :
    getPosts (.readable [⟨"post.mdx", true⟩]) (fun _ => ImportResult.loaded none) =
      Except.ok [⟨none, "post"⟩] :=
  getPosts_missing_meta_no_abort [⟨"post.mdx", true⟩] (fun _ => ImportResult.loaded none)
    (by decide)

/-- C3: for every filename ending in the recognized extension `.mdx`
(that is, every filename of the form `base ++ ".mdx"`), the derived
slug is the filename with the extension removed, and appending the
extension to the slug round-trips to the original filename. -/
theorem slugOf_roundtrip (base : String) :
    slugOf (base ++ ".mdx") = base ∧ slugOf (base ++ ".mdx") ++ ".mdx" = base ++ ".mdx" := by
  have hd : (base ++ ".mdx").data = base.data ++ ['.', 'm', 'd', 'x'] := rfl
  have h1 : slugOf (base ++ ".mdx") = base := by
    unfold slugOf
    rw [hd, stripMdx_append]
  exact ⟨h1, by rw [h1]⟩

/-- Counterexample to C4 as stated: `"postmdx"` does not end in the
suffix `.mdx`, yet the Slug Deriver does not return it unchanged — the
unescaped regex dot makes `/.mdx$/` match the final `tmdx`, giving
`"pos"`. -/
theorem slugOf_passthrough_counterexample :
    (¬ ∃ base, ("postmdx" : String) = base ++ ".mdx") ∧
      slugOf ("postmdx") = "pos" ∧ slugOf ("postmdx") ≠ "postmdx" := by
  refine ⟨?_, by decide, by decide⟩
  intro hex
  exact absurd ((endsWithDotMdx_iff ("postmdx")).mpr hex) (by decide)

/-- C4 (amended): a filename passes through the Slug Deriver unchanged
exactly when the regex `/.mdx$/` does not match it, i.e. when it does
not end in ANY character followed by `mdx` — a strictly smaller set
than "filenames not ending in `.mdx`", because the regex dot is
unescaped. -/
theorem slugOf_passthrough (name : String) (h : matchDotMdx name = false) :
    slugOf name = name := by
  unfold slugOf
  rw [stripMdx_no_match _ (matchDotMdx_false_no_match name h)]

/-- Witness for C4 (amended): `"hello"` is not matched by the regex and
passes through unchanged. -/
theorem slugOf_passthrough_witness : slugOf ("hello") = "hello" :=
  slugOf_passthrough ("hello") (by decide)

/-- Counterexample to C5 as stated: a directory entry that is not a
regular file (`isFile = false`, e.g. a subdirectory) still contributes
an Index Entry — the source requests `withFileTypes: true` but never
filters on the type. -/
theorem getPosts_no_file_filter_counterexample :
    getPosts (.readable [⟨"drafts", false⟩]) (fun _ => .loaded (some ⟨"T", "D"⟩)) =
      Except.ok [⟨some ⟨"T", "D"⟩, "drafts"⟩] := by
  rfl

/-- C5 (amended): no filtering to regular files is applied; `getPosts`
never consults the file-type information, so flipping every entry to a
non-regular-file type yields the identical result. -/
theorem getPosts_ignores_file_type (l : List Dirent) (importMod : String → ImportResult) :
    getPosts (.readable (l.map fun f => ⟨f.name, false⟩)) importMod =
      getPosts (.readable l) importMod := by
  show promiseAll (List.map (buildEntry importMod) (l.map fun f => ⟨f.name, false⟩)) =
    promiseAll (List.map (buildEntry importMod) l)
  rw [List.map_map]
  exact congrArg promiseAll (List.map_congr_left fun f _ => rfl)

/-- C6: the Index Entries come back in filesystem-enumeration order —
the result is exactly the listing mapped entrywise (the i-th entry is
built from the i-th directory entry); no sort or reordering occurs. -/
theorem getPosts_preserves_order (l : List Dirent) (importMod : String → ImportResult)
    (h : ∀ f ∈ l, (importMod f.name).isLoaded = true) :
    getPosts (.readable l) importMod =
      Except.ok (l.map fun f => ⟨(importMod f.name).loadedMeta, slugOf f.name⟩) :=
  getPosts_readable_eq_map l importMod h

/-- Witness for C6: two files with distinct metadata come back in
listing order. -/
theorem getPosts_preserves_order_witness :
    getPosts (.readable [⟨"b.mdx", true⟩, ⟨"a.mdx", true⟩])
      (fun n => if n = "b.mdx" then .loaded (some ⟨"B", "2"⟩) else .loaded (some ⟨"A", "1"⟩)) =
      Except.ok [⟨some ⟨"B", "2"⟩, "b"⟩, ⟨some ⟨"A", "1"⟩, "a"⟩] := by
  have hres := getPosts_preserves_order [⟨"b.mdx", true⟩, ⟨"a.mdx", true⟩]
    (fun n => if n = "b.mdx" then .loaded (some ⟨"B", "2"⟩) else .loaded (some ⟨"A", "1"⟩))
    (by decide)
  simpa using hres

/-- C7: the Index Builder is deterministic — two invocations against an
unchanged content directory (same listing status, extensionally the
same per-file import results) return equal results, same elements in
the same order. -/
theorem getPosts_deterministic (d1 d2 : DirStatus) (m1 m2 : String → ImportResult)
    (hd : d1 = d2) (hm : ∀ n, m1 n = m2 n) :
    getPosts d1 m1 = getPosts d2 m2 := by
  subst hd
  rw [funext hm]

/-- Witness for C7: a concrete repeated invocation returns the same
result both times. -/
theorem getPosts_deterministic_witness :
    getPosts (.readable [⟨"a.mdx", true⟩]) (fun _ => ImportResult.loaded none) =
      getPosts (.readable [⟨"a.mdx", true⟩]) (fun _ => ImportResult.loaded none) :=
  getPosts_deterministic _ _ _ _ rfl (fun _ => rfl)

/-- C8: a readable content directory with zero files yields the empty
sequence of Index Entries, not an error. -/
theorem getPosts_empty_dir (importMod : String → ImportResult) :
    getPosts (.readable []) importMod = Except.ok [] :=
  rfl

/-- C9: a missing content directory fails the build with
DirectoryNotFound and an unreadable one with PermissionDenied; in both
cases `getPosts` rejects, producing no Index Entries. -/
theorem getPosts_dir_errors (importMod : String → ImportResult) :
    getPosts .missing importMod = Except.error (.fsError .directoryNotFound) ∧
      getPosts .unreadable importMod = Except.error (.fsError .permissionDenied) :=
  ⟨rfl, rfl⟩

/-- Counterexample to C10 as stated: `"a.mdxzmdx"` contains `.mdx` only
in a non-final position (it does not end in `.mdx`), so by the claim
the slug should equal the filename unchanged; but the unescaped regex
dot matches the final `zmdx` and the slug is `"a.mdx"`. -/
theorem slugOf_suffix_only_counterexample :
    (∃ pre post, ("a.mdxzmdx" : String).data = pre ++ ['.', 'm', 'd', 'x'] ++ post) ∧
      (¬ ∃ base, ("a.mdxzmdx" : String) = base ++ ".mdx") ∧
      slugOf ("a.mdxzmdx") = "a.mdx" ∧ slugOf ("a.mdxzmdx") ≠ "a.mdxzmdx" := by
  refine ⟨⟨['a'], ['z', 'm', 'd', 'x'], by decide⟩, ?_, by decide, by decide⟩
  intro hex
  exact absurd ((endsWithDotMdx_iff ("a.mdxzmdx")).mpr hex) (by decide)

/-- C10 (amended): slug derivation removes at most one match and only
at the very end — every filename is either returned unchanged or equals
the returned slug extended by exactly four characters, some single
character followed by `mdx` (the unescaped regex dot matches any
character, not only a literal dot).  In particular `"a.mdx.txt"` is
unchanged and `"p.mdx.mdx"` loses only its final four characters. -/
theorem slugOf_single_anchored_strip :
    (∀ name : String, slugOf name = name ∨
        ∃ c : Char, name = slugOf name ++ String.mk [c, 'm', 'd', 'x']) ∧
      slugOf ("a.mdx.txt") = "a.mdx.txt" ∧ slugOf ("p.mdx.mdx") = "p.mdx" := by
  refine ⟨?_, by decide, by decide⟩
  intro name
  cases hm : matchDotMdx name with
  | false =>
    left
    unfold slugOf
    rw [stripMdx_no_match _ (matchDotMdx_false_no_match name hm)]
  | true =>
    right
    obtain ⟨c, rest, hrev⟩ := matchDotMdx_true_exists name hm
    refine ⟨c, ?_⟩
    have hdata : name.data = rest.reverse ++ [c, 'm', 'd', 'x'] := by
      have hrr := congrArg List.reverse hrev
      simpa using hrr
    have hslug : slugOf name = String.mk rest.reverse := by
      unfold slugOf
      rw [hdata, stripMdx_append]
    rw [hslug]
    exact congrArg String.mk hdata

end Blog
